import Mathlib

/-!
# Verification of the Resume ATS Screener keyword core

Shallow embedding of the scoring core of the Resume_ATS_Screener repository:
the legacy keyword engine (text normalizer, keyword extractor, boundary-aware
matcher, score mapper), the composite aggregator, the cosine-similarity helper
of the semantic engine, and the response validator of the AI-recruiter engine.

Texts are modelled as `List Char`; JavaScript strings are UTF-16 but every
behaviour the claims exercise is on Unicode scalar values.  JavaScript numbers
are modelled as `ℚ` (and `ℝ` where `Math.sqrt` appears), with `Math.round`
modelled as `⌊x + 1/2⌋`, which is its round-half-toward-plus-infinity
semantics.  `String.toLowerCase` is modelled by ASCII lowering (`Char.toLower`),
which agrees with JavaScript on the ASCII range exercised here.
-/

namespace ATS

/-- Coerce a Lean string literal to the `List Char` text representation. -/
def strL (s : String) : List Char := s.data

/-- The JavaScript `\s` character class (whitespace), as used by the
tokenizing `split(/\s+/)`, the punctuation-stripping character class and
`String.trim` in `extractKeywords`. -/
def jsWhitespace : List Char :=
  ['\t', '\n', '\x0b', '\x0c', '\r', ' ', '\u00A0', '\u1680',
   '\u2000', '\u2001', '\u2002', '\u2003', '\u2004', '\u2005', '\u2006',
   '\u2007', '\u2008', '\u2009', '\u200A', '\u2028', '\u2029', '\u202F',
   '\u205F', '\u3000', '\uFEFF']

/-- Whitespace test used throughout the embedding. -/
def isWs (c : Char) : Bool := c ∈ jsWhitespace

/-- JavaScript regex line terminators, which `.` does not match. -/
def lineTerminators : List Char := ['\n', '\r', '\u2028', '\u2029']

/-- The character class `[a-z0-9\-+#.]` of characters that `extractKeywords`
keeps (everything else outside `\s` is replaced by a space). -/
def allowedChar (c : Char) : Bool :=
  (97 ≤ c.toNat && c.toNat ≤ 122) || (48 ≤ c.toNat && c.toNat ≤ 57) ||
    c = '-' || c = '+' || c = '#' || c = '.'

/-- ASCII decimal digit, the `\d` class of `/^\d+$/`. -/
def isDigitCh (c : Char) : Bool := 48 ≤ c.toNat && c.toNat ≤ 57

/-- The boundary class of the matcher's pattern
`(?<![a-z0-9])…(?![a-z0-9])` compiled with the `i` flag:
ASCII letters of either case and digits. -/
def boundaryAlnum (c : Char) : Bool :=
  (97 ≤ c.toNat && c.toNat ≤ 122) || (65 ≤ c.toNat && c.toNat ≤ 90) ||
    (48 ≤ c.toNat && c.toNat ≤ 57)

/-- `text.toLowerCase()` (ASCII fragment): per-character `Char.toLower`. -/
def jsToLowerStr (l : List Char) : List Char := l.map Char.toLower

/-- `phrase.replace(/\s+/g, "-")`: rewrite every maximal whitespace run to a
single hyphen.  `started` records whether the previous character consumed was
part of a whitespace run whose hyphen has already been emitted. -/
def wsToHyphenGo (started : Bool) : List Char → List Char
  | [] => []
  | c :: cs =>
    if isWs c then
      (if started then [] else ['-']) ++ wsToHyphenGo true cs
    else
      c :: wsToHyphenGo false cs

/-- The whitespace-to-hyphen rewrite of a compound phrase. -/
def wsToHyphen (l : List Char) : List Char := wsToHyphenGo false l

/-- Single-character semantics of a compound phrase compiled by
`new RegExp(phrase, "g")`: the pattern character `p` from the phrase against
a text character `c`.  The phrases are not regex-escaped by the source, so
`.` is the regex wildcard (any character but a line terminator); every other
character occurring in a phrase is literal. -/
def regexCharMatch (p c : Char) : Bool :=
  if p = '.' then !(c ∈ lineTerminators) else p = c

/-- Literal single-character comparison (used for the spec-side literal
reading of phrase replacement, and by the claim-language definitions). -/
def litCharMatch (p c : Char) : Bool := p = c

/-- Does pattern `p` (under matcher `m`) match at the front of `l`? -/
def matchesFront (m : Char → Char → Bool) : List Char → List Char → Bool
  | [], _ => true
  | _ :: _, [] => false
  | p :: ps, c :: cs => m p c && matchesFront m ps cs

/-- Global (leftmost, non-overlapping) replacement of pattern `p` by `repl`,
the semantics of `String.replace` with a `g`-flagged regex; `fuel` bounds the
number of scan steps (each step consumes at least one character, so any
`fuel ≥ length of the text` is exact).  The table's phrases are all
nonempty, so the `p = []` corner (where JavaScript would insert `repl`
between characters) never arises. -/
def replaceGo (m : Char → Char → Bool) (p repl : List Char) : ℕ → List Char → List Char
  | _, [] => []
  | 0, l => l
  | fuel + 1, c :: cs =>
    if matchesFront m p (c :: cs) then
      repl ++ replaceGo m p repl fuel (cs.drop (p.length - 1))
    else
      c :: replaceGo m p repl fuel cs

/-- `text.replace(new RegExp-like pattern, repl)` with the `g` flag. -/
def replaceG (m : Char → Char → Bool) (p repl l : List Char) : List Char :=
  replaceGo m p repl l.length l

/-- The fixed compound-phrase table (`COMPOUND_PHRASES`), in source order. -/
def COMPOUND_PHRASES : List (List Char) :=
  ["machine learning", "artificial intelligence", "natural language processing",
   "data structures", "design patterns", "system design", "distributed systems",
   "continuous integration", "continuous deployment", "test driven development",
   "object oriented", "functional programming", "version control",
   "rest api", "graphql api", "grpc", "event driven", "micro services",
   "next.js", "react.js", "node.js", "vue.js", "angular.js",
   "aws lambda", "google cloud", "azure devops",
   "row level security", "full stack", "front end", "back end"].map strL

/-- One phrase pass of `normaliseWithPhrases`:
`lower.replace(new RegExp(phrase, "g"), phrase.replace(/\s+/g, "-"))`. -/
def phrasePass (acc phrase : List Char) : List Char :=
  replaceG regexCharMatch phrase (wsToHyphen phrase) acc

/-- `normaliseWithPhrases` from the legacy engine: lower-case, then run every
compound-phrase replacement in table order. -/
def normaliseWithPhrases (text : List Char) : List Char :=
  COMPOUND_PHRASES.foldl phrasePass (jsToLowerStr text)

/-- The stop-word set (`STOP_WORDS`) of the legacy engine, verbatim
(`\x27` is the apostrophe). -/
def STOP_WORDS : List (List Char) :=
  ["a", "about", "above", "after", "again", "against", "all", "also", "am", "an", "and",
   "any", "are", "aren\x27t", "as", "at", "be", "because", "been", "before", "being", "below",
   "between", "both", "but", "by", "can", "can\x27t", "cannot", "could", "couldn\x27t", "did",
   "didn\x27t", "do", "does", "doesn\x27t", "doing", "don\x27t", "down", "during", "each", "few",
   "for", "from", "further", "get", "got", "had", "hadn\x27t", "has", "hasn\x27t", "have",
   "haven\x27t", "having", "he", "he\x27d", "he\x27ll", "he\x27s", "her", "here", "here\x27s", "hers",
   "herself", "him", "himself", "his", "how", "how\x27s", "i", "i\x27d", "i\x27ll", "i\x27m", "i\x27ve",
   "if", "in", "into", "is", "isn\x27t", "it", "it\x27s", "its", "itself", "let\x27s", "me", "more",
   "most", "mustn\x27t", "my", "myself", "no", "nor", "not", "of", "off", "on", "once", "only",
   "or", "other", "ought", "our", "ours", "ourselves", "out", "over", "own", "same", "shan\x27t",
   "she", "she\x27d", "she\x27ll", "she\x27s", "should", "shouldn\x27t", "so", "some", "such", "than",
   "that", "that\x27s", "the", "their", "theirs", "them", "themselves", "then", "there",
   "there\x27s", "these", "they", "they\x27d", "they\x27ll", "they\x27re", "they\x27ve", "this", "those",
   "through", "to", "too", "under", "until", "up", "very", "was", "wasn\x27t", "we", "we\x27d",
   "we\x27ll", "we\x27re", "we\x27ve", "were", "weren\x27t", "what", "what\x27s", "when", "when\x27s",
   "where", "where\x27s", "which", "while", "who", "who\x27s", "whom", "why", "why\x27s", "will",
   "with", "won\x27t", "would", "wouldn\x27t", "you", "you\x27d", "you\x27ll", "you\x27re", "you\x27ve",
   "your", "yours", "yourself", "yourselves",
   "work", "working", "will", "role", "team", "company", "business", "position", "job",
   "experience", "years", "ability", "strong", "excellent", "good", "great", "new",
   "responsible", "responsibilities", "including", "ensure", "across", "within",
   "make", "use", "using", "used", "help", "need", "well", "able", "must", "plus", "via",
   "etc", "per", "key", "day", "days", "time", "based", "looking", "require", "required"].map strL

/-- `.replace(/[^a-z0-9\-+#.\s]/g, " ")`: every character outside the kept
class and whitespace becomes a single space. -/
def punctToSpace (l : List Char) : List Char :=
  l.map (fun c => if allowedChar c || isWs c then c else ' ')

/-- `split(/\s+/)`: split at maximal whitespace runs.  An empty first (last)
element appears when the text starts (ends) with whitespace, as in
JavaScript.  `inSep` is true while consuming a whitespace run whose split has
already been emitted. -/
def splitWsGo (cur : List Char) (inSep : Bool) : List Char → List (List Char)
  | [] => [cur.reverse]
  | c :: cs =>
    if isWs c then
      if inSep then splitWsGo cur true cs
      else cur.reverse :: splitWsGo [] true cs
    else
      splitWsGo (c :: cur) false cs

/-- `split(/\s+/)` on a whole text. -/
def jsSplitWs (l : List Char) : List (List Char) := splitWsGo [] false l

/-- `String.trim`: strip whitespace from both ends. -/
def jsTrim (l : List Char) : List Char :=
  ((l.dropWhile isWs).reverse.dropWhile isWs).reverse

/-- `/^\d+$/.test t`: `t` is one or more digits. -/
def isNumericTok (t : List Char) : Bool := !t.isEmpty && t.all isDigitCh

/-- `+t` for a purely numeric token: its decimal value. -/
def tokVal (t : List Char) : Nat :=
  t.foldl (fun n c => 10 * n + (c.toNat - 48)) 0

/-- The token filter of `extractKeywords` (the body of `.filter(...)`). -/
def keepToken (t : List Char) : Bool :=
  if t.length < 2 then false
  else if t ∈ STOP_WORDS then false
  else if isNumericTok t && (decide (t.length < 4) || decide (tokVal t < 1990)
      || decide (2040 < tokVal t)) then false
  else true

/-- `[...new Set(tokens)]`: de-duplicate keeping the first occurrence of each
element, preserving insertion order; `fuel` bounds the number of steps (one
element is consumed per step, so any `fuel ≥ length of the list` is
exact). -/
def dedupGo : ℕ → List (List Char) → List (List Char)
  | _, [] => []
  | 0, l => l
  | fuel + 1, a :: l => a :: dedupGo fuel (l.filter (· ≠ a))

/-- `[...new Set(tokens)]`. -/
def dedupFirst (l : List (List Char)) : List (List Char) := dedupGo l.length l

/-- The trimmed raw tokens `extractKeywords` produces before filtering:
normalization, punctuation-to-space, whitespace split, trim. -/
def rawTokens (text : List Char) : List (List Char) :=
  (jsSplitWs (punctToSpace (normaliseWithPhrases text))).map jsTrim

/-- `extractKeywords` from the legacy engine. -/
def extractKeywords (text : List Char) : List (List Char) :=
  dedupFirst ((rawTokens text).filter keepToken)

/-! ## The keyword matcher (`runLegacyATS`) -/

/-- Tail of the text after consuming `kw` at the front: the characters that
the lookahead `(?![a-z0-9])` inspects. -/
def afterMatch (kw l : List Char) : List Char := l.drop kw.length

/-- Case-insensitive literal match of the (regex-escaped, hence literal)
keyword at the front of the text, the `i`-flag semantics on the ASCII
range: the text character is lowered before comparison with the (already
lower-case) keyword character. -/
def ciMatchesFront : List Char → List Char → Bool
  | [], _ => true
  | _ :: _, [] => false
  | k :: ks, c :: cs => (Char.toLower c = k) && ciMatchesFront ks cs

/-- The lookbehind `(?<![a-z0-9])` against the character (if any) before the
current position. -/
def prevOKb : Option Char → Bool
  | none => true
  | some p => !boundaryAlnum p

/-- The lookahead `(?![a-z0-9])` against the text remaining after the
keyword. -/
def afterOKb : List Char → Bool
  | [] => true
  | d :: _ => !boundaryAlnum d

/-- Scan for `(?<![a-z0-9])kw(?![a-z0-9])` (with `i`): `prev` is the
character immediately before the current position (`none` at the start of
the text). -/
def boundaryScan (kw : List Char) (prev : Option Char) : List Char → Bool
  | [] => false
  | c :: cs =>
    (prevOKb prev && ciMatchesFront kw (c :: cs) &&
      afterOKb (afterMatch kw (c :: cs))) ||
    boundaryScan kw (some c) cs

/-- `pattern.test(normalisedResume)` for the matcher's boundary-aware
pattern built from keyword `kw`. -/
def boundaryTest (kw text : List Char) : Bool := boundaryScan kw none text

/-- The matcher loop of `runLegacyATS`: partition the job-description
keywords into `(matched, missing)`, appending in input order. -/
def matchLoop (kws : List (List Char)) (resume : List Char) :
    List (List Char) × List (List Char) :=
  kws.foldl
    (fun mm kw =>
      if boundaryTest kw resume then (mm.1 ++ [kw], mm.2)
      else (mm.1, mm.2 ++ [kw]))
    ([], [])

/-- `Math.round`: round half toward positive infinity. -/
def jsRound (q : ℚ) : ℤ := ⌊q + 1 / 2⌋

/-- `LegacyATSResult` from `@/types/evaluation`. -/
structure LegacyATSResult where
  score : ℚ
  matchedKeywords : List (List Char)
  missingKeywords : List (List Char)
  totalJDKeywords : ℕ
  matchRate : ℚ
  deriving Repr, DecidableEq

/-- The `matchRate` local of `runLegacyATS`:
`jdKeywords.length > 0 ? matched.length / jdKeywords.length : 0`. -/
def legacyRate (resumeText jobDescription : List Char) : ℚ :=
  if (extractKeywords jobDescription).length > 0 then
    (((matchLoop (extractKeywords jobDescription)
        (normaliseWithPhrases resumeText)).1.length : ℚ) /
      ((extractKeywords jobDescription).length : ℚ))
  else 0

/-- `runLegacyATS` from the legacy engine (the source's `jdKeywords`,
`normalisedResume`, `matched`/`missing` and `matchRate` locals are written
out in place). -/
def runLegacyATS (resumeText jobDescription : List Char) : LegacyATSResult :=
  { score := (jsRound (legacyRate resumeText jobDescription * 1000) : ℚ) / 10
    matchedKeywords :=
      (matchLoop (extractKeywords jobDescription) (normaliseWithPhrases resumeText)).1
    missingKeywords :=
      (matchLoop (extractKeywords jobDescription) (normaliseWithPhrases resumeText)).2
    totalJDKeywords := (extractKeywords jobDescription).length
    matchRate := legacyRate resumeText jobDescription }

/-! ## The composite aggregator (`handleSubmit`, step 4) -/

/-- The composite score of `handleSubmit`:
`Math.round((legacy.score * 0.3 + semantic.score * 0.3 + aiRecruiter.Score * 0.4) * 10) / 10`
(the decimal literals `0.3`, `0.4` are the rationals `3/10`, `4/10` here). -/
def compositeScore (legacyScore semanticScore aiScore : ℚ) : ℚ :=
  (jsRound ((legacyScore * (3 / 10) + semanticScore * (3 / 10)
      + aiScore * (4 / 10)) * 10) : ℚ) / 10

/-! ## `cosineSimilarity` from the semantic engine

`Math.sqrt` forces the value into `ℝ`; the control flow (the length guard and
the zero-denominator branch the claim is about) stays decidable. -/

/-- `dot`, `normA`, `normB` accumulated by the loop of `cosineSimilarity`. -/
def dotAcc (a b : List ℚ) : ℚ := (a.zip b).foldl (fun s p => s + p.1 * p.2) 0

/-- Sum of squares of a vector (the `normA`/`normB` accumulator). -/
def sqAcc (a : List ℚ) : ℚ := a.foldl (fun s x => s + x * x) 0

/-- `cosineSimilarity`: throws (`Except.error`) on dimension mismatch,
otherwise returns `0` when the denominator `denom = √normA * √normB` is `0`
and the cosine quotient `dot / denom` when it is not (`denom` written out
in place of the source's local binding). -/
noncomputable def cosineSimilarity (a b : List ℚ) : Except String ℝ :=
  if a.length ≠ b.length then .error "Vector dimension mismatch"
  else if Real.sqrt (sqAcc a : ℚ) * Real.sqrt (sqAcc b : ℚ) = 0 then .ok 0
  else .ok ((dotAcc a b : ℚ) / (Real.sqrt (sqAcc a : ℚ) * Real.sqrt (sqAcc b : ℚ)))

/-! ## `validateAIResult` from the AI-recruiter engine -/

/-- JSON-like values received from the generative service
(`JSON.parse` output). -/
inductive JSValue where
  | num (q : ℚ)
  | str (s : String)
  | bool (b : Bool)
  | null
  | arr (xs : List JSValue)
  | obj (fields : List (String × JSValue))

/-- `typeof v === "object"` (arrays and `null` are objects in JavaScript). -/
def isObjectType : JSValue → Bool
  | .obj _ => true
  | .arr _ => true
  | .null => true
  | _ => false

/-- Property access `r.name`; `none` is `undefined`. -/
def getField (v : JSValue) (name : String) : Option JSValue :=
  match v with
  | .obj fields => fields.lookup name
  | _ => none

/-- The four `validVerdicts`. -/
def validVerdicts : List String :=
  ["Strong Match", "Moderate Match", "Weak Match", "Not a Fit"]

/-- `typeof r.Score !== "number" || r.Score < 0 || r.Score > 100` throws;
this is the passing condition. -/
def scoreOK (o : Option JSValue) : Bool :=
  match o with
  | some (.num q) => decide (0 ≤ q) && decide (q ≤ 100)
  | _ => false

/-- `validVerdicts.includes(r.Verdict as string)` (strict equality, so a
non-string `Verdict` never passes). -/
def verdictOK (o : Option JSValue) : Bool :=
  match o with
  | some (.str s) => s ∈ validVerdicts
  | _ => false

/-- `typeof r.Feedback !== "string" || r.Feedback.length < 10` throws. -/
def feedbackOK (o : Option JSValue) : Bool :=
  match o with
  | some (.str s) => decide (10 ≤ s.length)
  | _ => false

/-- `!Array.isArray(x) || x.length === 0` throws (for `Pros` and `Cons`). -/
def nonEmptyArrOK (o : Option JSValue) : Bool :=
  match o with
  | some (.arr xs) => !xs.isEmpty
  | _ => false

/-- `validateAIResult`: `true` when every check passes, `false` when the
function throws. -/
def validateAIResult (v : JSValue) : Bool :=
  match v with
  | .null => false
  | _ =>
    isObjectType v &&
    scoreOK (getField v "Score") &&
    verdictOK (getField v "Verdict") &&
    feedbackOK (getField v "Feedback") &&
    nonEmptyArrOK (getField v "Pros") &&
    nonEmptyArrOK (getField v "Cons")

/-! ## Spec-side definitions

These follow the specification's wording, to be compared with the source
embeddings above. -/

/-- Modelled from the spec: rounding to one decimal place,
`round(x, 1 decimal)`. -/
def specRound1 (q : ℚ) : ℚ := ((round (q * 10) : ℤ) : ℚ) / 10

/-- Modelled from the spec (claim C6): lower-case the text, then replace the
*literal* occurrences of each compound phrase, in table order, by its
whitespace-to-hyphen rewrite. -/
def litNormalise (text : List Char) : List Char :=
  COMPOUND_PHRASES.foldl
    (fun acc p => replaceG litCharMatch p (wsToHyphen p) acc) (jsToLowerStr text)

/-- Modelled from the spec (claim C2): a token survives the extraction filter
iff it is at least 2 characters long, not a stop word, and not a purely
numeric token that is shorter than 4 digits or denotes a value outside
`[1990, 2040]`. -/
def specKeep (t : List Char) : Prop :=
  2 ≤ t.length ∧ t ∉ STOP_WORDS ∧
    ¬(isNumericTok t = true ∧
      (t.length < 4 ∨ tokVal t < 1990 ∨ 2040 < tokVal t))

/-- Modelled from the spec (claim C1): the normalized résumé text contains an
occurrence of the keyword that is neither immediately preceded nor
immediately followed by an alphanumeric character. -/
def SpecBoundaryOccurs (k text : List Char) : Prop :=
  ∃ pre post, text = pre ++ k ++ post ∧
    (∀ c, pre.getLast? = some c → boundaryAlnum c = false) ∧
    (∀ c, post.head? = some c → boundaryAlnum c = false)

/-- Modelled from the spec (claim C8): the validator's acceptance condition
as the specification words it — an object whose `Score` is an *integer* in
`[0, 100]`, whose `Verdict` is one of the four enum values, whose `Feedback`
is a string, and whose `Pros` and `Cons` are arrays of *strings*. -/
def isStrArr : Option JSValue → Bool
  | some (.arr xs) => xs.all (fun x => match x with | .str _ => true | _ => false)
  | _ => false

/-- Modelled from the spec (claim C8): see `isStrArr`. -/
def specAIAccepts (v : JSValue) : Bool :=
  (match v with | .obj _ => true | _ => false) &&
  (match getField v "Score" with
    | some (.num q) => decide (q.den = 1) && decide (0 ≤ q) && decide (q ≤ 100)
    | _ => false) &&
  (match getField v "Verdict" with
    | some (.str s) => s ∈ validVerdicts
    | _ => false) &&
  (match getField v "Feedback" with
    | some (.str _) => true
    | _ => false) &&
  isStrArr (getField v "Pros") && isStrArr (getField v "Cons")

/-- Amended acceptance condition for claim C8, as the code implements it: a
non-null object-typed value whose `Score` is a *number* (integer or not) in
`[0, 100]`, whose `Verdict` is one of the four enum values, whose `Feedback`
is a string of length at least 10, and whose `Pros` and `Cons` are
*non-empty* arrays (their element types are not inspected). -/
def amendedAIAccepts (v : JSValue) : Prop :=
  isObjectType v = true ∧ v ≠ JSValue.null ∧
  (∃ q, getField v "Score" = some (.num q) ∧ 0 ≤ q ∧ q ≤ 100) ∧
  (∃ s, getField v "Verdict" = some (.str s) ∧ s ∈ validVerdicts) ∧
  (∃ s, getField v "Feedback" = some (.str s) ∧ 10 ≤ s.length) ∧
  (∃ xs, getField v "Pros" = some (JSValue.arr xs) ∧ xs ≠ []) ∧
  (∃ xs, getField v "Cons" = some (JSValue.arr xs) ∧ xs ≠ [])

/-- The concrete value witnessing the divergence between `validateAIResult`
and the specification's description of it: the `Score` is the non-integer
number `50.5`, which the code accepts. -/
def aiCex : JSValue :=
  .obj [("Score", .num (mkRat 101 2)), ("Verdict", .str "Strong Match"),
        ("Feedback", .str "Solid resume with a relevant stack."),
        ("Pros", .arr [.str "clear impact metrics"]),
        ("Cons", .arr [.str "no cloud experience"])]

/-- The input on which normalization fails to be idempotent: the leftmost
scan of the "test driven development" pass consumes the overlapping first
occurrence only, and rewriting it re-exposes a second occurrence that only a
second normalization pass sees. -/
def idemCexText : List Char := strL "test driven developmentest driven development"

/-! ## Projection lemmas for `runLegacyATS` -/

theorem runLegacyATS_matchedKeywords (r j : List Char) :
    (runLegacyATS r j).matchedKeywords =
      (matchLoop (extractKeywords j) (normaliseWithPhrases r)).1 := by
  simp only [runLegacyATS]

theorem runLegacyATS_missingKeywords (r j : List Char) :
    (runLegacyATS r j).missingKeywords =
      (matchLoop (extractKeywords j) (normaliseWithPhrases r)).2 := by
  simp only [runLegacyATS]

theorem runLegacyATS_totalJDKeywords (r j : List Char) :
    (runLegacyATS r j).totalJDKeywords = (extractKeywords j).length := by
  simp only [runLegacyATS]

theorem runLegacyATS_matchRate (r j : List Char) :
    (runLegacyATS r j).matchRate =
      if 0 < (extractKeywords j).length then
        (((matchLoop (extractKeywords j) (normaliseWithPhrases r)).1.length : ℚ) /
          ((extractKeywords j).length : ℚ))
      else 0 := by
  simp only [runLegacyATS, legacyRate, gt_iff_lt]

theorem runLegacyATS_matchRate_eq (r j : List Char) :
    (runLegacyATS r j).matchRate = legacyRate r j := by
  simp only [runLegacyATS]

theorem runLegacyATS_score (r j : List Char) :
    (runLegacyATS r j).score =
      (jsRound ((runLegacyATS r j).matchRate * 1000) : ℚ) / 10 := by
  simp only [runLegacyATS]

/-! ## Claim theorems -/

/-- C3: if keyword extraction from the job description yields zero keywords,
the engine returns score 0, matchRate 0, totalJDKeywords 0 and empty
matched/missing lists (and, being a total function, returns without
error). -/
theorem C3_degenerateEmptyJD (resumeText jobDescription : List Char)
    (h : extractKeywords jobDescription = []) :
    (runLegacyATS resumeText jobDescription).score = 0 ∧
    (runLegacyATS resumeText jobDescription).matchRate = 0 ∧
    (runLegacyATS resumeText jobDescription).totalJDKeywords = 0 ∧
    (runLegacyATS resumeText jobDescription).matchedKeywords = [] ∧
    (runLegacyATS resumeText jobDescription).missingKeywords = [] := by
  have hrate : legacyRate resumeText jobDescription = 0 := by
    simp only [legacyRate, h, List.length_nil, gt_iff_lt, lt_irrefl, if_false]
  have hrate' : (runLegacyATS resumeText jobDescription).matchRate = 0 :=
    (runLegacyATS_matchRate_eq resumeText jobDescription).trans hrate
  refine ⟨?_, hrate', ?_, ?_, ?_⟩
  · rw [runLegacyATS_score, hrate', jsRound,
      show (0 : ℚ) * 1000 + 1 / 2 = 1 / 2 by norm_num,
      show ⌊(1 / 2 : ℚ)⌋ = 0 from Int.floor_eq_iff.mpr (by norm_num)]
    norm_num
  · rw [runLegacyATS_totalJDKeywords, h]
    rfl
  · rw [runLegacyATS_matchedKeywords, h]
    rfl
  · rw [runLegacyATS_missingKeywords, h]
    rfl

/-- Witness for C3 at the concrete empty job description. -/
theorem C3_witness :
    extractKeywords (strL "") = [] ∧
    (runLegacyATS (strL "I build APIs in Go") (strL "")).score = 0 ∧
    (runLegacyATS (strL "I build APIs in Go") (strL "")).matchRate = 0 ∧
    (runLegacyATS (strL "I build APIs in Go") (strL "")).totalJDKeywords = 0 ∧
    (runLegacyATS (strL "I build APIs in Go") (strL "")).matchedKeywords = [] ∧
    (runLegacyATS (strL "I build APIs in Go") (strL "")).missingKeywords = [] := by
  have h : extractKeywords (strL "") = [] := by decide
  have hc := C3_degenerateEmptyJD (strL "I build APIs in Go") (strL "") h
  exact ⟨h, hc.1, hc.2.1, hc.2.2.1, hc.2.2.2.1, hc.2.2.2.2⟩

/-- C4: the composite score is the 30/30/40 weighted sum rounded to one
decimal place, and it maps inputs in `[0, 100]` into `[0, 100]`. -/
theorem C4_composite (l s a : ℚ) :
    compositeScore l s a =
      specRound1 (l * (3 / 10) + s * (3 / 10) + a * (4 / 10)) ∧
    (0 ≤ l → l ≤ 100 → 0 ≤ s → s ≤ 100 → 0 ≤ a → a ≤ 100 →
      0 ≤ compositeScore l s a ∧ compositeScore l s a ≤ 100) := by
  constructor
  · simp only [compositeScore, specRound1, jsRound, round_eq]
  · intro hl0 hl1 hs0 hs1 ha0 ha1
    simp only [compositeScore, jsRound]
    have h0 : (0 : ℤ) ≤ ⌊(l * (3 / 10) + s * (3 / 10) + a * (4 / 10)) * 10 + 1 / 2⌋ := by
      rw [Int.le_floor]
      push_cast
      nlinarith
    have h1 : ⌊(l * (3 / 10) + s * (3 / 10) + a * (4 / 10)) * 10 + 1 / 2⌋ ≤ 1000 := by
      rw [Int.floor_le_iff]
      push_cast
      nlinarith
    have hc0 : (0 : ℚ) ≤
        ((⌊(l * (3 / 10) + s * (3 / 10) + a * (4 / 10)) * 10 + 1 / 2⌋ : ℤ) : ℚ) := by
      exact_mod_cast h0
    have hc1 : ((⌊(l * (3 / 10) + s * (3 / 10) + a * (4 / 10)) * 10 + 1 / 2⌋ : ℤ) : ℚ)
        ≤ 1000 := by exact_mod_cast h1
    constructor
    · exact div_nonneg hc0 (by norm_num)
    · rw [div_le_iff₀ (by norm_num : (0 : ℚ) < 10)]
      linarith

/-- Witness for C4 at `(50, 60, 70)`: the composite is `61`, inside
`[0, 100]`. -/
theorem C4_witness :
    compositeScore 50 60 70 = 61 ∧
    0 ≤ compositeScore 50 60 70 ∧ compositeScore 50 60 70 ≤ 100 := by
  have hb := (C4_composite 50 60 70).2 (by norm_num) (by norm_num) (by norm_num)
    (by norm_num) (by norm_num) (by norm_num)
  refine ⟨?_, hb.1, hb.2⟩
  simp only [compositeScore, jsRound]
  rw [show (50 * (3 / 10 : ℚ) + 60 * (3 / 10) + 70 * (4 / 10)) * 10 + 1 / 2
      = 1221 / 2 by norm_num]
  rw [show ⌊(1221 / 2 : ℚ)⌋ = 610 from Int.floor_eq_iff.mpr (by norm_num)]
  norm_num

/-- C10: `cosineSimilarity` errors exactly on dimension mismatch, never
errors on equal-length vectors, and returns `0` (rather than dividing by
zero) whenever either vector has zero squared magnitude, i.e. whenever the
denominator of the cosine formula is zero. -/
theorem C10_cosine (a b : List ℚ) :
    ((∃ e, cosineSimilarity a b = .error e) ↔ a.length ≠ b.length) ∧
    (a.length = b.length → ∃ r, cosineSimilarity a b = .ok r) ∧
    (a.length = b.length → sqAcc a = 0 ∨ sqAcc b = 0 →
      cosineSimilarity a b = .ok 0) := by
  refine ⟨⟨?_, ?_⟩, ?_, ?_⟩
  · rintro ⟨e, he⟩ hlen
    rw [cosineSimilarity, if_neg (fun hc => hc hlen)] at he
    split at he <;> exact Except.noConfusion he
  · intro hlen
    exact ⟨_, by rw [cosineSimilarity, if_pos hlen]⟩
  · intro hlen
    rw [cosineSimilarity, if_neg (fun hc => hc hlen)]
    split <;> exact ⟨_, rfl⟩
  · intro hlen h0
    have hz : Real.sqrt ((sqAcc a : ℚ) : ℝ) * Real.sqrt ((sqAcc b : ℚ) : ℝ) = 0 := by
      rcases h0 with h0 | h0 <;> rw [h0] <;> simp
    rw [cosineSimilarity, if_neg (fun hc => hc hlen), if_pos hz]

/-- Witness for C10: a zero vector against `[3, 4]` yields `ok 0`; a
dimension mismatch yields an error. -/
theorem C10_witness :
    cosineSimilarity [0, 0] [3, 4] = .ok 0 ∧
    (∃ e, cosineSimilarity [1] [1, 2] = .error e) := by
  constructor
  · exact (C10_cosine [0, 0] [3, 4]).2.2 rfl
      (Or.inl (by norm_num [sqAcc, List.foldl]))
  · exact (C10_cosine [1] [1, 2]).1.mpr (by decide)

/-- C8 counterexample: the validator accepts the non-integer score `50.5`
(`mkRat 101 2`), so acceptance is not equivalent to the specification's
condition, which demands an integer `Score`. -/
theorem C8_cex : validateAIResult aiCex = true ∧ specAIAccepts aiCex = false := by
  decide

/-- `scoreOK` holds exactly on in-range numbers. -/
theorem scoreOK_iff (o : Option JSValue) :
    scoreOK o = true ↔ ∃ q, o = some (JSValue.num q) ∧ 0 ≤ q ∧ q ≤ 100 := by
  rcases o with _ | v
  · simp [scoreOK]
  · cases v <;> simp [scoreOK, and_assoc]

/-- `verdictOK` holds exactly on enum strings. -/
theorem verdictOK_iff (o : Option JSValue) :
    verdictOK o = true ↔ ∃ s, o = some (JSValue.str s) ∧ s ∈ validVerdicts := by
  rcases o with _ | v
  · simp [verdictOK]
  · cases v <;> simp [verdictOK]

/-- `feedbackOK` holds exactly on strings of length at least 10. -/
theorem feedbackOK_iff (o : Option JSValue) :
    feedbackOK o = true ↔ ∃ s, o = some (JSValue.str s) ∧ 10 ≤ s.length := by
  rcases o with _ | v
  · simp [feedbackOK]
  · cases v <;> simp [feedbackOK]

/-- `nonEmptyArrOK` holds exactly on non-empty arrays. -/
theorem nonEmptyArrOK_iff (o : Option JSValue) :
    nonEmptyArrOK o = true ↔ ∃ xs, o = some (JSValue.arr xs) ∧ xs ≠ [] := by
  rcases o with _ | v
  · simp [nonEmptyArrOK]
  · cases v <;> simp [nonEmptyArrOK]

/-- C8 amended: the validator accepts a value iff it is a non-null
object-typed value whose `Score` is a *number* in `[0, 100]` (not
necessarily an integer), whose `Verdict` is one of the four enum strings,
whose `Feedback` is a string of length at least 10, and whose `Pros` and
`Cons` are non-empty arrays (of unchecked element type); otherwise the call
fails as a whole. -/
theorem C8_validator_amended (v : JSValue) :
    validateAIResult v = true ↔ amendedAIAccepts v := by
  cases v with
  | null => simp [validateAIResult, amendedAIAccepts]
  | num q => simp [validateAIResult, amendedAIAccepts, isObjectType]
  | str s => simp [validateAIResult, amendedAIAccepts, isObjectType]
  | bool b => simp [validateAIResult, amendedAIAccepts, isObjectType]
  | arr xs =>
    simp [validateAIResult, amendedAIAccepts, isObjectType, getField,
      scoreOK_iff]
  | obj fields =>
    simp only [validateAIResult, Bool.and_eq_true, amendedAIAccepts,
      isObjectType, scoreOK_iff, verdictOK_iff, feedbackOK_iff,
      nonEmptyArrOK_iff]
    simp [and_assoc]

/-- C6 counterexample: `normaliseWithPhrases` compiles each phrase as an
unescaped regular expression, so the `.` of `"next.js"` matches any
character: `"nextxjs"` is rewritten to `"next.js"`, while the literal
replacement described by the claim leaves `"nextxjs"` unchanged. -/
theorem C6_cex :
    normaliseWithPhrases (strL "nextxjs") = strL "next.js" ∧
    litNormalise (strL "nextxjs") = strL "nextxjs" ∧
    normaliseWithPhrases (strL "nextxjs") ≠ litNormalise (strL "nextxjs") := by
  decide

/-- C2: a raw token survives the extraction filter iff it is at least two
characters long, is not a stop word, and is not a purely numeric token that
is shorter than four digits or whose value lies outside `[1990, 2040]`; on
the spec's examples, "Graduated in 2021 with 5 years experience" keeps
"2021" and drops "5", and "We are a team that will use AI" yields exactly
the keyword "ai". -/
theorem C2_extractorFilter :
    (∀ text t, t ∈ rawTokens text → (keepToken t = true ↔ specKeep t)) ∧
    extractKeywords (strL "Graduated in 2021 with 5 years experience") =
      [strL "graduated", strL "2021"] ∧
    strL "2021" ∈ extractKeywords (strL "Graduated in 2021 with 5 years experience") ∧
    strL "5" ∉ extractKeywords (strL "Graduated in 2021 with 5 years experience") ∧
    extractKeywords (strL "We are a team that will use AI") = [strL "ai"] := by
  refine ⟨?_, by decide, by decide, by decide, by decide⟩
  intro text t ht
  clear ht
  unfold keepToken specKeep
  split_ifs with h1 h2 h3
  · simp only [false_iff]
    intro hc
    omega
  · simp only [false_iff]
    intro hc
    exact hc.2.1 h2
  · simp only [false_iff]
    intro hc
    apply hc.2.2
    simp only [Bool.and_eq_true, Bool.or_eq_true, decide_eq_true_eq] at h3
    exact ⟨h3.1, or_assoc.mp h3.2⟩
  · simp only [true_iff]
    refine ⟨by omega, h2, ?_⟩
    rintro ⟨hnum, hcases⟩
    apply h3
    simp only [Bool.and_eq_true, Bool.or_eq_true, decide_eq_true_eq]
    exact ⟨hnum, or_assoc.mpr hcases⟩

/-- Witness for C2 at the token "2021" of the first example text. -/
theorem C2_witness : specKeep (strL "2021") ∧ keepToken (strL "2021") = true := by
  have h := (C2_extractorFilter.1 (strL "Graduated in 2021 with 5 years experience")
    (strL "2021") (by decide)).mp (by decide)
  exact ⟨h, by decide⟩

/-- The concrete résumé of the spec's rate-computation example: it contains
exactly 6 of the job description's 10 keywords. -/
def rateEgResume : List Char := strL "alpha bravo charlie delta echo foxtrot"

/-- The concrete job description of the spec's rate-computation example,
carrying 10 distinct keywords. -/
def rateEgJD : List Char :=
  strL "alpha bravo charlie delta echo foxtrot golf hotel india juliet"

set_option maxRecDepth 100000 in
/-- C5: the match rate is `matched/total` when `total > 0` and `0`
otherwise, the engine score is the match rate times 100 rounded to one
decimal place, and on a concrete 10-keyword job description with exactly 6
keywords matched the rate is `0.6` and the score `60`. -/
theorem C5_scoreMapper (resumeText jobDescription : List Char) :
    ((runLegacyATS resumeText jobDescription).matchRate =
      if 0 < (runLegacyATS resumeText jobDescription).totalJDKeywords then
        (((runLegacyATS resumeText jobDescription).matchedKeywords.length : ℚ) /
          ((runLegacyATS resumeText jobDescription).totalJDKeywords : ℚ))
      else 0) ∧
    (runLegacyATS resumeText jobDescription).score =
      specRound1 ((runLegacyATS resumeText jobDescription).matchRate * 100) ∧
    (runLegacyATS rateEgResume rateEgJD).totalJDKeywords = 10 ∧
    (runLegacyATS rateEgResume rateEgJD).matchedKeywords.length = 6 ∧
    (runLegacyATS rateEgResume rateEgJD).matchRate = 3 / 5 ∧
    (runLegacyATS rateEgResume rateEgJD).score = 60 := by
  have hjd : extractKeywords rateEgJD =
      [strL "alpha", strL "bravo", strL "charlie", strL "delta", strL "echo",
       strL "foxtrot", strL "golf", strL "hotel", strL "india", strL "juliet"] := by
    decide
  have hmm : matchLoop (extractKeywords rateEgJD) (normaliseWithPhrases rateEgResume) =
      ([strL "alpha", strL "bravo", strL "charlie", strL "delta", strL "echo",
        strL "foxtrot"],
       [strL "golf", strL "hotel", strL "india", strL "juliet"]) := by
    decide
  have hrate : (runLegacyATS rateEgResume rateEgJD).matchRate = 3 / 5 := by
    rw [runLegacyATS_matchRate, hmm, hjd]
    norm_num
  refine ⟨?_, ?_, ?_, ?_, hrate, ?_⟩
  · rw [runLegacyATS_matchRate, runLegacyATS_totalJDKeywords,
      runLegacyATS_matchedKeywords]
  · rw [runLegacyATS_score, specRound1, round_eq, jsRound,
      show (runLegacyATS resumeText jobDescription).matchRate * 100 * 10
        = (runLegacyATS resumeText jobDescription).matchRate * 1000 by ring]
  · rw [runLegacyATS_totalJDKeywords, hjd]
    rfl
  · rw [runLegacyATS_matchedKeywords, hmm]
    rfl
  · rw [runLegacyATS_score, hrate, jsRound,
      show (3 / 5 : ℚ) * 1000 + 1 / 2 = 1201 / 2 by norm_num,
      show ⌊(1201 / 2 : ℚ)⌋ = 600 from Int.floor_eq_iff.mpr (by norm_num)]
    norm_num

/-! ## De-duplication lemmas (claim C9) -/

theorem mem_dedupGo :
    ∀ (fuel : ℕ) (l : List (List Char)), l.length ≤ fuel →
      ∀ a, a ∈ dedupGo fuel l ↔ a ∈ l := by
  intro fuel
  induction fuel with
  | zero =>
    intro l hl a
    rw [Nat.le_zero, List.length_eq_zero] at hl
    subst hl
    rfl
  | succ n ih =>
    intro l hl a
    cases l with
    | nil => rfl
    | cons b t =>
      simp only [dedupGo, List.mem_cons]
      have hlen : (t.filter (· ≠ b)).length ≤ n :=
        le_trans (List.length_filter_le _ _) (by simpa using hl)
      rw [ih _ hlen a]
      simp only [List.mem_filter, decide_eq_true_eq]
      constructor
      · rintro (rfl | ⟨h, -⟩)
        · exact Or.inl rfl
        · exact Or.inr h
      · rintro (rfl | h)
        · exact Or.inl rfl
        · by_cases hab : a = b
          · exact Or.inl hab
          · exact Or.inr ⟨h, hab⟩

theorem nodup_dedupGo :
    ∀ (fuel : ℕ) (l : List (List Char)), l.length ≤ fuel →
      (dedupGo fuel l).Nodup := by
  intro fuel
  induction fuel with
  | zero =>
    intro l hl
    rw [Nat.le_zero, List.length_eq_zero] at hl
    subst hl
    exact List.nodup_nil
  | succ n ih =>
    intro l hl
    cases l with
    | nil => exact List.nodup_nil
    | cons b t =>
      have hlen : (t.filter (· ≠ b)).length ≤ n :=
        le_trans (List.length_filter_le _ _) (by simpa using hl)
      refine List.nodup_cons.mpr ⟨?_, ih _ hlen⟩
      intro hb
      have := (List.mem_filter.mp ((mem_dedupGo _ _ hlen b).mp hb)).2
      simp at this

theorem indexOf_cons_self' {α : Type} [BEq α] [LawfulBEq α] (a : α) (l : List α) :
    (a :: l).indexOf a = 0 := by
  simp [List.indexOf_cons]

theorem indexOf_cons_ne' {α : Type} [BEq α] [LawfulBEq α] {a b : α} (l : List α)
    (h : b ≠ a) : (b :: l).indexOf a = l.indexOf a + 1 := by
  have hb : (b == a) = false := beq_eq_false_iff_ne.mpr h
  simp [List.indexOf_cons, hb]

/-- Filtering preserves the relative order of surviving elements: a strict
`indexOf` inequality in the filtered list implies one in the original
list. -/
theorem indexOf_filter_lt {α : Type} [BEq α] [LawfulBEq α] (p : α → Bool) :
    ∀ (l : List α) (x y : α), x ∈ l.filter p → y ∈ l.filter p →
      (l.filter p).indexOf x < (l.filter p).indexOf y →
      l.indexOf x < l.indexOf y := by
  intro l
  induction l with
  | nil => intro x y hx; simp at hx
  | cons h t ih =>
    intro x y hx hy hlt
    by_cases php : p h = true
    · rw [List.filter_cons_of_pos php] at hx hy hlt
      by_cases hxh : x = h
      · subst hxh
        rw [indexOf_cons_self'] at hlt ⊢
        have hyx : y ≠ x := by
          intro he
          rw [he, indexOf_cons_self'] at hlt
          omega
        rw [indexOf_cons_ne' t (fun he => hyx he.symm)]
        omega
      · rw [indexOf_cons_ne' _ (fun he => hxh he.symm)] at hlt ⊢
        by_cases hyh : y = h
        · subst hyh
          rw [indexOf_cons_self'] at hlt
          omega
        · rw [indexOf_cons_ne' _ (fun he => hyh he.symm)] at hlt ⊢
          have hx' : x ∈ t.filter p := by
            rcases List.mem_cons.mp hx with he | he
            · exact absurd he hxh
            · exact he
          have hy' : y ∈ t.filter p := by
            rcases List.mem_cons.mp hy with he | he
            · exact absurd he hyh
            · exact he
          have := ih x y hx' hy' (by omega)
          omega
    · rw [List.filter_cons_of_neg (by simpa using php)] at hx hy hlt
      have hxh : x ≠ h := by
        rintro rfl
        exact php (List.mem_filter.mp hx).2
      have hyh : y ≠ h := by
        rintro rfl
        exact php (List.mem_filter.mp hy).2
      rw [indexOf_cons_ne' _ (fun he => hxh he.symm),
        indexOf_cons_ne' _ (fun he => hyh he.symm)]
      have := ih x y hx hy hlt
      omega

/-- The de-duplicated list is ordered by first occurrence in the input. -/
theorem pairwise_indexOf_dedupGo :
    ∀ (fuel : ℕ) (l : List (List Char)), l.length ≤ fuel →
      (dedupGo fuel l).Pairwise (fun a b => l.indexOf a < l.indexOf b) := by
  intro fuel
  induction fuel with
  | zero =>
    intro l hl
    rw [Nat.le_zero, List.length_eq_zero] at hl
    subst hl
    exact List.Pairwise.nil
  | succ n ih =>
    intro l hl
    cases l with
    | nil => exact List.Pairwise.nil
    | cons b t =>
      have hlen : (t.filter (· ≠ b)).length ≤ n :=
        le_trans (List.length_filter_le _ _) (by simpa using hl)
      rw [dedupGo]
      refine List.Pairwise.cons ?_ ?_
      · intro a ha
        have ha' := (mem_dedupGo _ _ hlen a).mp ha
        have hab : a ≠ b := by
          have := (List.mem_filter.mp ha').2
          simpa using this
        rw [indexOf_cons_self', indexOf_cons_ne' t (fun he => hab he.symm)]
        omega
      · refine (ih _ hlen).imp_of_mem ?_
        intro a c ha hc hlt
        have ha' := (mem_dedupGo _ _ hlen a).mp ha
        have hc' := (mem_dedupGo _ _ hlen c).mp hc
        have hab : a ≠ b := by simpa using (List.mem_filter.mp ha').2
        have hcb : c ≠ b := by simpa using (List.mem_filter.mp hc').2
        rw [indexOf_cons_ne' t (fun he => hab he.symm),
          indexOf_cons_ne' t (fun he => hcb he.symm)]
        have := indexOf_filter_lt _ t a c ha' hc' hlt
        omega

/-! ## Token character invariants (claim C9) -/

/-- Every character of every token produced by the whitespace split comes
from the seed accumulator or is a non-whitespace character of the input. -/
theorem splitWsGo_chars :
    ∀ (l cur : List Char) (inSep : Bool) (t : List Char),
      t ∈ splitWsGo cur inSep l → ∀ c ∈ t, c ∈ cur ∨ (c ∈ l ∧ isWs c = false) := by
  intro l
  induction l with
  | nil =>
    intro cur inSep t ht c hc
    simp only [splitWsGo, List.mem_singleton] at ht
    subst ht
    exact Or.inl (List.mem_reverse.mp hc)
  | cons d ds ih =>
    intro cur inSep t ht c hc
    simp only [splitWsGo] at ht
    split at ht
    · split at ht
      · rcases ih cur true t ht c hc with h | ⟨h1, h2⟩
        · exact Or.inl h
        · exact Or.inr ⟨List.mem_cons_of_mem d h1, h2⟩
      · rcases List.mem_cons.mp ht with h | h
        · subst h
          exact Or.inl (List.mem_reverse.mp hc)
        · rcases ih [] true t h c hc with h' | ⟨h1, h2⟩
          · simp at h'
          · exact Or.inr ⟨List.mem_cons_of_mem d h1, h2⟩
    · rename_i hws
      rcases ih (d :: cur) false t ht c hc with h | ⟨h1, h2⟩
      · rcases List.mem_cons.mp h with h' | h'
        · subst h'
          exact Or.inr ⟨List.mem_cons_self c ds, by simpa using hws⟩
        · exact Or.inl h'
      · exact Or.inr ⟨List.mem_cons_of_mem d h1, h2⟩

/-- After the punctuation pass every character is in the kept class or
whitespace. -/
theorem punctToSpace_chars (l : List Char) :
    ∀ c ∈ punctToSpace l, allowedChar c = true ∨ isWs c = true := by
  intro c hc
  rcases List.mem_map.mp hc with ⟨d, -, rfl⟩
  by_cases hb : (allowedChar d || isWs d) = true
  · rw [if_pos hb]
    exact (Bool.or_eq_true _ _).mp hb
  · rw [if_neg hb]
    right
    decide

/-- Trimming only drops characters. -/
theorem jsTrim_subset (l : List Char) : ∀ c ∈ jsTrim l, c ∈ l := by
  intro c hc
  rw [jsTrim] at hc
  have h1 := List.mem_reverse.mp hc
  have h2 := (List.dropWhile_sublist isWs).subset h1
  have h3 := List.mem_reverse.mp h2
  exact (List.dropWhile_sublist isWs).subset h3

/-- Kept tokens are at least two characters long. -/
theorem keepToken_length {t : List Char} (h : keepToken t = true) :
    2 ≤ t.length := by
  by_contra hlt
  rw [keepToken, if_pos (by omega)] at h
  exact Bool.noConfusion h

/-- Every character of every extracted keyword is in the allowed class and
is not whitespace. -/
theorem extractKeywords_chars (text : List Char) :
    ∀ k ∈ extractKeywords text, ∀ c ∈ k, allowedChar c = true ∧ isWs c = false := by
  intro k hk c hc
  rw [extractKeywords, dedupFirst] at hk
  have hk' := (mem_dedupGo _ _ le_rfl k).mp hk
  have hk2 := (List.mem_filter.mp hk').1
  rw [rawTokens] at hk2
  rcases List.mem_map.mp hk2 with ⟨t, ht, rfl⟩
  have hct := jsTrim_subset t c hc
  rcases splitWsGo_chars _ [] false t ht c hct with h | ⟨h1, h2⟩
  · simp at h
  · rcases punctToSpace_chars _ c h1 with h | h
    · exact ⟨h, h2⟩
    · rw [h] at h2
      exact Bool.noConfusion h2

/-- Pattern matchers that agree on the pattern's characters match the same
fronts. -/
theorem matchesFront_congr (m₁ m₂ : Char → Char → Bool) (p : List Char)
    (h : ∀ c ∈ p, ∀ d, m₁ c d = m₂ c d) :
    ∀ l, matchesFront m₁ p l = matchesFront m₂ p l := by
  induction p with
  | nil => intro l; rfl
  | cons c cs ih =>
    intro l
    cases l with
    | nil => rfl
    | cons d ds =>
      simp only [matchesFront]
      rw [h c (by simp), ih (fun x hx d' => h x (by simp [hx]) d') ds]

/-- Pattern matchers that agree on the pattern's characters produce the same
global replacement. -/
theorem replaceGo_congr (m₁ m₂ : Char → Char → Bool) (p repl : List Char)
    (h : ∀ c ∈ p, ∀ d, m₁ c d = m₂ c d) :
    ∀ fuel l, replaceGo m₁ p repl fuel l = replaceGo m₂ p repl fuel l := by
  intro fuel
  induction fuel with
  | zero => intro l; cases l <;> rfl
  | succ n ih =>
    intro l
    cases l with
    | nil => rfl
    | cons c cs =>
      simp only [replaceGo]
      rw [matchesFront_congr m₁ m₂ p h (c :: cs)]
      split
      · rw [ih]
      · rw [ih]

/-- On non-dot characters the regex semantics of a phrase is literal. -/
theorem regexCharMatch_eq_lit {c : Char} (hc : c ≠ '.') (d : Char) :
    regexCharMatch c d = litCharMatch c d := by
  simp [regexCharMatch, litCharMatch, hc]

/-- The concrete compound-phrase example text of the spec. -/
def egPhraseText : List Char :=
  strL "Experience with machine learning and REST API design"

/-- C6 amended: normalization is lower-casing followed by the in-order
phrase passes, where each pass replaces the matches of the phrase compiled
as an (unescaped) regular expression — so `.` in a phrase matches any
non-line-terminator character; for every phrase not containing `.` the pass
is exactly the literal replacement the claim describes, and the compound
phrase example still extracts the single keyword "machine-learning" rather
than "machine" and "learning". -/
theorem C6_amended_regex :
    (∀ text, normaliseWithPhrases text =
      COMPOUND_PHRASES.foldl phrasePass (jsToLowerStr text)) ∧
    (∀ p repl l, '.' ∉ p →
      replaceG regexCharMatch p repl l = replaceG litCharMatch p repl l) ∧
    strL "machine-learning" ∈ extractKeywords egPhraseText ∧
    strL "machine" ∉ extractKeywords egPhraseText ∧
    strL "learning" ∉ extractKeywords egPhraseText := by
  refine ⟨fun _ => rfl, ?_, by decide, by decide, by decide⟩
  intro p repl l hdot
  exact replaceGo_congr regexCharMatch litCharMatch p repl
    (fun c hc d => regexCharMatch_eq_lit (fun he => hdot (he ▸ hc)) d) l.length l

/-- Witness for C6 amended: the dotless phrase "machine learning" replaces
literally on a concrete text. -/
theorem C6_amended_witness :
    ('.' ∉ strL "machine learning") ∧
    replaceG regexCharMatch (strL "machine learning") (strL "machine-learning")
        (strL "we do machine learning work") =
      replaceG litCharMatch (strL "machine learning") (strL "machine-learning")
        (strL "we do machine learning work") := by
  refine ⟨by decide, ?_⟩
  exact C6_amended_regex.2.1 (strL "machine learning") (strL "machine-learning")
    (strL "we do machine learning work") (by decide)

/-- Every character of a global replacement comes from the replacement
string or from the input text. -/
theorem mem_replaceGo (m : Char → Char → Bool) (p repl : List Char) :
    ∀ fuel l c, c ∈ replaceGo m p repl fuel l → c ∈ repl ∨ c ∈ l := by
  intro fuel
  induction fuel with
  | zero =>
    intro l c hc
    cases l with
    | nil => simp [replaceGo] at hc
    | cons d ds => exact Or.inr hc
  | succ n ih =>
    intro l c hc
    cases l with
    | nil => simp [replaceGo] at hc
    | cons d ds =>
      simp only [replaceGo] at hc
      split at hc
      · rcases List.mem_append.mp hc with h | h
        · exact Or.inl h
        · rcases ih _ c h with h' | h'
          · exact Or.inl h'
          · exact Or.inr (List.mem_cons_of_mem d (List.mem_of_mem_drop h'))
      · rcases List.mem_cons.mp hc with h | h
        · exact Or.inr (h ▸ List.mem_cons_self d ds)
        · rcases ih _ c h with h' | h'
          · exact Or.inl h'
          · exact Or.inr (List.mem_cons_of_mem d h')

/-- `(Char.ofNat n).toNat = n` on valid codepoints. -/
theorem toNat_ofNat_valid {n : ℕ} (h : n.isValidChar) : (Char.ofNat n).toNat = n := by
  rw [Char.ofNat, dif_pos h]
  rfl

/-- `Char.toLower` fixes every character that is not an ASCII capital. -/
theorem toLower_eq_self_of_not_upper {c : Char}
    (h : ¬(65 ≤ c.toNat ∧ c.toNat ≤ 90)) : Char.toLower c = c := by
  unfold Char.toLower
  rw [if_neg (fun hc => h ⟨hc.1, hc.2⟩)]

/-- `Char.toLower` shifts an ASCII capital down by 32. -/
theorem toLower_toNat_of_upper {c : Char}
    (h : 65 ≤ c.toNat ∧ c.toNat ≤ 90) : (Char.toLower c).toNat = c.toNat + 32 := by
  unfold Char.toLower
  rw [if_pos ⟨h.1, h.2⟩]
  exact toNat_ofNat_valid (Or.inl (by omega))

/-- The output of `Char.toLower` is never an ASCII capital. -/
theorem toLower_not_upper (c : Char) :
    ¬(65 ≤ (Char.toLower c).toNat ∧ (Char.toLower c).toNat ≤ 90) := by
  by_cases h : 65 ≤ c.toNat ∧ c.toNat ≤ 90
  · rw [toLower_toNat_of_upper h]
    omega
  · rw [toLower_eq_self_of_not_upper h]
    exact h

/-- ASCII lowering is idempotent per character. -/
theorem toLower_toLower (c : Char) : Char.toLower (Char.toLower c) = Char.toLower c :=
  toLower_eq_self_of_not_upper (toLower_not_upper c)

/-- Allowed characters are not ASCII capitals, so lowering fixes them. -/
theorem toLower_eq_self_of_allowed {c : Char} (h : allowedChar c = true) :
    Char.toLower c = c := by
  apply toLower_eq_self_of_not_upper
  rintro ⟨h1, h2⟩
  simp only [allowedChar, Bool.or_eq_true, Bool.and_eq_true,
    decide_eq_true_eq] at h
  rcases h with ((((⟨a1, a2⟩ | ⟨a1, a2⟩) | hc) | hc) | hc) | hc
  · omega
  · omega
  · subst hc; exact absurd h1 (by decide)
  · subst hc; exact absurd h1 (by decide)
  · subst hc; exact absurd h1 (by decide)
  · subst hc; exact absurd h1 (by decide)


/-- A text each of whose characters is fixed by ASCII lowering. -/
def IsLoweredStr (l : List Char) : Prop := ∀ c ∈ l, Char.toLower c = c

instance (l : List Char) : Decidable (IsLoweredStr l) :=
  inferInstanceAs (Decidable (∀ c ∈ l, Char.toLower c = c))

/-- `toLowerCase` output is lowered. -/
theorem isLowered_jsToLowerStr (l : List Char) : IsLoweredStr (jsToLowerStr l) := by
  intro c hc
  rcases List.mem_map.mp hc with ⟨d, _, rfl⟩
  exact toLower_toLower d

/-- A phrase pass keeps a lowered text lowered (the replacement strings of
the table are lowered). -/
theorem isLowered_phrasePass {acc : List Char} (hacc : IsLoweredStr acc)
    (p : List Char) (hp : IsLoweredStr (wsToHyphen p)) :
    IsLoweredStr (phrasePass acc p) := by
  intro c hc
  rcases mem_replaceGo regexCharMatch p (wsToHyphen p) acc.length acc c hc with h | h
  · exact hp c h
  · exact hacc c h

/-- Folding phrase passes keeps a lowered text lowered. -/
theorem isLowered_foldl :
    ∀ (ps : List (List Char)) (acc : List Char), IsLoweredStr acc →
      (∀ p ∈ ps, IsLoweredStr (wsToHyphen p)) →
      IsLoweredStr (List.foldl phrasePass acc ps) := by
  intro ps
  induction ps with
  | nil => exact fun acc h _ => h
  | cons p ps ih =>
    intro acc hacc hps
    exact ih _ (isLowered_phrasePass hacc p (hps p (by simp)))
      (fun q hq => hps q (by simp [hq]))

/-- Every hyphenated compound phrase is lowered. -/
theorem phrases_lowered : ∀ p ∈ COMPOUND_PHRASES, IsLoweredStr (wsToHyphen p) := by
  decide

/-- The normalizer's output is lowered. -/
theorem isLowered_normalise (text : List Char) :
    IsLoweredStr (normaliseWithPhrases text) :=
  isLowered_foldl COMPOUND_PHRASES _ (isLowered_jsToLowerStr text) phrases_lowered

/-- `toLowerCase` is the identity on lowered texts. -/
theorem jsToLowerStr_eq_self {l : List Char} (h : IsLoweredStr l) :
    jsToLowerStr l = l := by
  unfold jsToLowerStr
  induction l with
  | nil => rfl
  | cons c cs ih =>
    rw [List.map_cons, h c (by simp), ih (fun d hd => h d (by simp [hd]))]

/-- A fold by a function that fixes the accumulator on every listed element
is the identity. -/
theorem foldl_fixed {α β : Type} (f : α → β → α) :
    ∀ (ps : List β) (y : α), (∀ p ∈ ps, f y p = y) → List.foldl f y ps = y := by
  intro ps
  induction ps with
  | nil => intro y _; rfl
  | cons p ps ih =>
    intro y h
    rw [List.foldl_cons, h p (by simp)]
    exact ih y (fun q hq => h q (by simp [hq]))

/-- C7 amended: normalization is idempotent on exactly those texts whose
normalization every phrase pass leaves unchanged (in particular whenever the
normalized text has no remaining phrase-pattern match); the counterexample
`C7_cex` shows it is not idempotent in general. -/
theorem C7_amended_idem (x : List Char)
    (h : ∀ p ∈ COMPOUND_PHRASES,
      phrasePass (normaliseWithPhrases x) p = normaliseWithPhrases x) :
    normaliseWithPhrases (normaliseWithPhrases x) = normaliseWithPhrases x := by
  conv_lhs => rw [normaliseWithPhrases]
  rw [jsToLowerStr_eq_self (isLowered_normalise x)]
  exact foldl_fixed phrasePass COMPOUND_PHRASES _ h

set_option maxRecDepth 40000 in
/-- Witness for C7 amended: on "machine learning rocks" every phrase pass
fixes the normalized text, so normalization is idempotent there. -/
theorem C7_amended_witness :
    (∀ p ∈ COMPOUND_PHRASES,
      phrasePass (normaliseWithPhrases (strL "machine learning rocks")) p =
        normaliseWithPhrases (strL "machine learning rocks")) ∧
    normaliseWithPhrases (normaliseWithPhrases (strL "machine learning rocks")) =
      normaliseWithPhrases (strL "machine learning rocks") := by
  have h : ∀ p ∈ COMPOUND_PHRASES,
      phrasePass (normaliseWithPhrases (strL "machine learning rocks")) p =
        normaliseWithPhrases (strL "machine learning rocks") := by decide
  exact ⟨h, C7_amended_idem _ h⟩

/-- C7 counterexample: normalization is not idempotent.  On a text with two
overlapping occurrences of "test driven development", the first pass rewrites
only the first occurrence (leftmost, non-overlapping), leaving a second
occurrence that only re-normalization rewrites. -/
theorem C7_cex :
    normaliseWithPhrases idemCexText =
      strL "test-driven-developmentest driven development" ∧
    normaliseWithPhrases (normaliseWithPhrases idemCexText) =
      strL "test-driven-developmentest-driven-development" ∧
    normaliseWithPhrases (normaliseWithPhrases idemCexText) ≠
      normaliseWithPhrases idemCexText := by
  decide

/-! ## The boundary-matcher bridge (claim C1) -/

/-- A literal front-match is exactly a prefix equation. -/
theorem matchesFront_lit_iff (k : List Char) :
    ∀ l, matchesFront litCharMatch k l = true ↔ ∃ rest, l = k ++ rest := by
  induction k with
  | nil =>
    intro l
    simp [matchesFront]
  | cons c cs ih =>
    intro l
    cases l with
    | nil =>
      simp only [matchesFront, Bool.false_eq_true, false_iff]
      rintro ⟨rest, h⟩
      exact List.cons_ne_nil c (cs ++ rest) h.symm
    | cons d ds =>
      simp only [matchesFront, Bool.and_eq_true, litCharMatch, decide_eq_true_eq,
        ih ds, List.cons_append, List.cons.injEq]
      constructor
      · rintro ⟨rfl, rest, rfl⟩
        exact ⟨rest, rfl, rfl⟩
      · rintro ⟨rest, h1, h2⟩
        exact ⟨h1.symm, rest, h2⟩

/-- On a lowered text the case-insensitive front-match is the literal
one. -/
theorem ciMatchesFront_eq_lit (k : List Char) :
    ∀ l, (∀ c ∈ l, Char.toLower c = c) →
      ciMatchesFront k l = matchesFront litCharMatch k l := by
  induction k with
  | nil => intro l _; rfl
  | cons c cs ih =>
    intro l hl
    cases l with
    | nil => rfl
    | cons d ds =>
      simp only [ciMatchesFront, matchesFront, litCharMatch]
      rw [hl d (List.mem_cons_self d ds),
        ih ds (fun x hx => hl x (List.mem_cons_of_mem d hx))]
      congr 1
      simp [eq_comm]

/-- The boundary condition on the left context: the last character of the
consumed prefix, or failing that the scan's `prev` character, is not
alphanumeric. -/
def prevBoundaryOK (prev : Option Char) (pre : List Char) : Prop :=
  match pre.getLast? with
  | some c => boundaryAlnum c = false
  | none => prevOKb prev = true

theorem afterOKb_iff (l : List Char) :
    afterOKb l = true ↔ ∀ c, l.head? = some c → boundaryAlnum c = false := by
  cases l with
  | nil => simp [afterOKb]
  | cons d ds => simp [afterOKb, Bool.not_eq_true']

/-- Characterization of the boundary scan: it succeeds exactly on a split
`pre ++ k ++ post` whose surrounding characters pass the boundary checks. -/
theorem boundaryScan_iff (k : List Char) (hk : k ≠ []) :
    ∀ (l : List Char), (∀ c ∈ l, Char.toLower c = c) → ∀ (prev : Option Char),
      (boundaryScan k prev l = true ↔
        ∃ pre post, l = pre ++ k ++ post ∧ prevBoundaryOK prev pre ∧
          afterOKb post = true) := by
  intro l
  induction l with
  | nil =>
    intro _ prev
    simp only [boundaryScan, Bool.false_eq_true, false_iff]
    rintro ⟨pre, post, heq, -, -⟩
    have hlen := congrArg List.length heq
    simp only [List.length_nil, List.length_append] at hlen
    cases k with
    | nil => exact hk rfl
    | cons a as =>
      simp only [List.length_cons] at hlen
      omega
  | cons c cs ih =>
    intro hl prev
    simp only [boundaryScan, Bool.or_eq_true, Bool.and_eq_true]
    rw [ih (fun x hx => hl x (List.mem_cons_of_mem c hx)) (some c)]
    constructor
    · rintro (⟨⟨hprev, hfront⟩, hafter⟩ | ⟨pre, post, heq, hpok, hhead⟩)
      · rw [ciMatchesFront_eq_lit k (c :: cs) hl, matchesFront_lit_iff] at hfront
        obtain ⟨post, hpost⟩ := hfront
        refine ⟨[], post, by simpa using hpost, ?_, ?_⟩
        · unfold prevBoundaryOK
          simpa using hprev
        · rw [afterMatch, hpost, List.drop_left] at hafter
          exact hafter
      · refine ⟨c :: pre, post, by rw [heq]; simp, ?_, hhead⟩
        cases pre with
        | nil =>
          unfold prevBoundaryOK at hpok ⊢
          simp only [List.getLast?_singleton]
          simpa [prevOKb, Bool.not_eq_true'] using hpok
        | cons d ds =>
          unfold prevBoundaryOK at hpok ⊢
          rw [List.getLast?_cons_cons]
          exact hpok
    · rintro ⟨pre, post, heq, hpok, hhead⟩
      cases pre with
      | nil =>
        left
        simp only [List.nil_append] at heq
        refine ⟨⟨?_, ?_⟩, ?_⟩
        · unfold prevBoundaryOK at hpok
          simpa using hpok
        · rw [ciMatchesFront_eq_lit k (c :: cs) hl, matchesFront_lit_iff]
          exact ⟨post, heq⟩
        · rw [afterMatch, heq, List.drop_left]
          exact hhead
      | cons a pre' =>
        right
        rw [List.cons_append] at heq
        injection heq with h1 h2
        subst h1
        refine ⟨pre', post, h2, ?_, hhead⟩
        cases pre' with
        | nil =>
          unfold prevBoundaryOK at hpok ⊢
          simp only [List.getLast?_singleton] at hpok
          simpa [prevOKb, Bool.not_eq_true'] using hpok
        | cons d ds =>
          unfold prevBoundaryOK at hpok ⊢
          rw [List.getLast?_cons_cons] at hpok
          exact hpok

/-- `pattern.test` on a lowered text is exactly the specification's
boundary-aware occurrence condition. -/
theorem boundaryTest_iff {k text : List Char} (hk : k ≠ [])
    (hl : ∀ c ∈ text, Char.toLower c = c) :
    boundaryTest k text = true ↔ SpecBoundaryOccurs k text := by
  rw [boundaryTest, boundaryScan_iff k hk text hl none]
  unfold SpecBoundaryOccurs
  constructor
  · rintro ⟨pre, post, heq, hpok, hafter⟩
    refine ⟨pre, post, heq, ?_, (afterOKb_iff post).mp hafter⟩
    intro c hc
    unfold prevBoundaryOK at hpok
    rw [hc] at hpok
    simpa using hpok
  · rintro ⟨pre, post, heq, hpre, hpost⟩
    refine ⟨pre, post, heq, ?_, (afterOKb_iff post).mpr hpost⟩
    unfold prevBoundaryOK
    cases hgl : pre.getLast? with
    | none => rfl
    | some c => exact hpre c hgl

/-- The matcher loop is an in-order partition by the boundary test. -/
theorem foldl_matchLoop (resume : List Char) :
    ∀ (kws : List (List Char)) (m s : List (List Char)),
      kws.foldl
        (fun mm kw =>
          if boundaryTest kw resume then (mm.1 ++ [kw], mm.2)
          else (mm.1, mm.2 ++ [kw])) (m, s) =
      (m ++ kws.filter (fun kw => boundaryTest kw resume),
       s ++ kws.filter (fun kw => !boundaryTest kw resume)) := by
  intro kws
  induction kws with
  | nil =>
    intro m s
    simp
  | cons kw kws ih =>
    intro m s
    rw [List.foldl_cons]
    by_cases h : boundaryTest kw resume = true
    · rw [if_pos h, ih]
      simp [List.filter_cons, h, List.append_assoc]
    · have hb : boundaryTest kw resume = false := by simpa using h
      rw [if_neg h, ih]
      simp [List.filter_cons, hb, List.append_assoc]

/-- `matchLoop` as a pair of filters. -/
theorem matchLoop_eq_filter (kws : List (List Char)) (resume : List Char) :
    matchLoop kws resume =
      (kws.filter (fun kw => boundaryTest kw resume),
       kws.filter (fun kw => !boundaryTest kw resume)) := by
  rw [matchLoop, foldl_matchLoop]
  simp

set_option maxRecDepth 40000 in
/-- C1: the matcher appends a keyword to `matched` iff the normalized résumé
text contains an occurrence of it that is neither immediately preceded nor
immediately followed by an alphanumeric character, otherwise to `missing`,
with both lists in input keyword order; in particular, keyword "java" is
matched against "I love javascript and Java EE" (via the standalone "Java"),
but not against "I love javascript" alone. -/
theorem C1_boundaryMatcher (kws : List (List Char)) (resume : List Char)
    (hk : ∀ k ∈ kws, k ≠ []) :
    ((matchLoop kws (normaliseWithPhrases resume)).1 =
        kws.filter (fun kw => boundaryTest kw (normaliseWithPhrases resume)) ∧
      (matchLoop kws (normaliseWithPhrases resume)).2 =
        kws.filter (fun kw => !boundaryTest kw (normaliseWithPhrases resume)) ∧
      (∀ k, k ∈ (matchLoop kws (normaliseWithPhrases resume)).1 ↔
        k ∈ kws ∧ SpecBoundaryOccurs k (normaliseWithPhrases resume)) ∧
      (∀ k, k ∈ (matchLoop kws (normaliseWithPhrases resume)).2 ↔
        k ∈ kws ∧ ¬SpecBoundaryOccurs k (normaliseWithPhrases resume))) ∧
    (matchLoop [strL "java"]
        (normaliseWithPhrases (strL "I love javascript and Java EE"))).1 =
      [strL "java"] ∧
    (matchLoop [strL "java"] (normaliseWithPhrases (strL "I love javascript"))).1 =
      [] := by
  have hlow := isLowered_normalise resume
  rw [matchLoop_eq_filter kws (normaliseWithPhrases resume)]
  refine ⟨⟨rfl, rfl, ?_, ?_⟩, by decide, by decide⟩
  · intro k
    show k ∈ List.filter _ kws ↔ _
    simp only [List.mem_filter]
    constructor
    · rintro ⟨hmem, htest⟩
      exact ⟨hmem, (boundaryTest_iff (hk k hmem) hlow).mp htest⟩
    · rintro ⟨hmem, hocc⟩
      exact ⟨hmem, (boundaryTest_iff (hk k hmem) hlow).mpr hocc⟩
  · intro k
    show k ∈ List.filter _ kws ↔ _
    simp only [List.mem_filter, Bool.not_eq_true']
    constructor
    · rintro ⟨hmem, htest⟩
      refine ⟨hmem, fun hocc => ?_⟩
      rw [(boundaryTest_iff (hk k hmem) hlow).mpr hocc] at htest
      exact Bool.noConfusion htest
    · rintro ⟨hmem, hocc⟩
      refine ⟨hmem, ?_⟩
      cases hbt : boundaryTest k (normaliseWithPhrases resume) with
      | false => rfl
      | true => exact absurd ((boundaryTest_iff (hk k hmem) hlow).mp hbt) hocc

set_option maxRecDepth 40000 in
/-- Witness for C1: "java" boundary-occurs in the normalized "I love
javascript and Java EE" but not in the normalized "I love javascript". -/
theorem C1_witness :
    SpecBoundaryOccurs (strL "java")
      (normaliseWithPhrases (strL "I love javascript and Java EE")) ∧
    ¬SpecBoundaryOccurs (strL "java")
      (normaliseWithPhrases (strL "I love javascript")) := by
  have h1 := C1_boundaryMatcher [strL "java"] (strL "I love javascript and Java EE")
    (by decide)
  have h2 := C1_boundaryMatcher [strL "java"] (strL "I love javascript") (by decide)
  constructor
  · refine ((h1.1.2.2.1 (strL "java")).mp ?_).2
    rw [h1.2.1]
    exact List.mem_singleton_self _
  · intro hocc
    have hmem := (h2.1.2.2.1 (strL "java")).mpr ⟨List.mem_singleton_self _, hocc⟩
    rw [h2.2.2] at hmem
    exact List.not_mem_nil _ hmem

/-- C9: extracted keywords are pairwise distinct, at least two characters
long, drawn from the allowed character classes (lower-case letters, digits,
hyphen, plus, hash, period — in particular no upper-case character, so each
keyword is fixed by lowering), and listed in order of first occurrence among
the kept tokens of the processed text. -/
theorem C9_keywordInvariants (text : List Char) :
    (extractKeywords text).Nodup ∧
    (∀ k ∈ extractKeywords text, 2 ≤ k.length ∧
      (∀ c ∈ k, allowedChar c = true) ∧ (∀ c ∈ k, Char.toLower c = c)) ∧
    (extractKeywords text).Pairwise (fun a b =>
      ((rawTokens text).filter keepToken).indexOf a <
        ((rawTokens text).filter keepToken).indexOf b) := by
  refine ⟨?_, ?_, ?_⟩
  · rw [extractKeywords, dedupFirst]
    exact nodup_dedupGo _ _ le_rfl
  · intro k hk
    have hchars := extractKeywords_chars text k hk
    have hkeep : keepToken k = true := by
      rw [extractKeywords, dedupFirst] at hk
      exact (List.mem_filter.mp ((mem_dedupGo _ _ le_rfl k).mp hk)).2
    exact ⟨keepToken_length hkeep, fun c hc => (hchars c hc).1,
      fun c hc => toLower_eq_self_of_allowed (hchars c hc).1⟩
  · rw [extractKeywords, dedupFirst]
    exact pairwise_indexOf_dedupGo _ _ le_rfl

/-- Witness for C9 on the stop-word example text: the extracted keyword "ai"
satisfies the invariants. -/
theorem C9_witness :
    2 ≤ (strL "ai").length ∧ (∀ c ∈ strL "ai", allowedChar c = true) ∧
    (∀ c ∈ strL "ai", Char.toLower c = c) :=
  (C9_keywordInvariants (strL "We are a team that will use AI")).2.1
    (strL "ai") (by decide)

end ATS
